import Mathlib

/-!
Verification of the rsure integrity-archive specification.

The weave delta store and the tree snapshot model are specified in the
repository's design document; the in-repo sources provide the tests and the
command-line driver.  The definitions below embed the weave parser, the weave
writers, the tree model with its serializer, comparator and hasher, and the
command-line tag decoding, and the theorems settle the specification's
quantified invariants against them.
-/

/-- One line of a weave stream: a header/meta line, an `I n` insert opener,
a `D n` delete opener, an `E n` block closer, or a body line. -/
inductive WLine where
  | meta : WLine
  | ins : Nat → WLine
  | del : Nat → WLine
  | endb : Nat → WLine
  | plain : String → WLine
  deriving DecidableEq, Repr

/-- Modelled from the spec: the keep rule for a body line, given the stack of
active blocks (innermost first; an entry `(true, n)` is an `I n` block,
`(false, n)` a `D n` block).  A body line is kept for target `t` iff at least
one enclosing `I n` has `n ≤ t` and no enclosing `D n` has `n ≤ t`. -/
def keepState (t : Nat) (st : List (Bool × Nat)) : Bool :=
  (st.any fun p => p.1 && decide (p.2 ≤ t)) && !(st.any fun p => !p.1 && decide (p.2 ≤ t))

/-- Modelled from the spec: the weave parser (the `Parser` of the weave crate,
which is not among the in-repo sources; only its tests are).  It traverses the
stream maintaining a stack of active `I`/`D` blocks and records every body
line together with the keep flag passed to `Sink.plain`.  An unmatched or
mismatched `E` is a format error, modelled as `none`. -/
def runParser (t : Nat) : List WLine → List (Bool × Nat) → Option (List (String × Bool))
  | [], _ => some []
  | WLine.meta :: rest, st => runParser t rest st
  | WLine.ins n :: rest, st => runParser t rest ((true, n) :: st)
  | WLine.del n :: rest, st => runParser t rest ((false, n) :: st)
  | WLine.endb _ :: _, [] => none
  | WLine.endb n :: rest, (_, m) :: st =>
      if n = m then runParser t rest st else none
  | WLine.plain s :: rest, st =>
      (runParser t rest st).map fun outs => (s, keepState t st) :: outs

/-- Modelled from the spec: retrieving delta `t` from a weave is running the
parser to EOF and collecting the body lines whose keep flag is true. -/
def parse (t : Nat) (w : List WLine) : Option (List String) :=
  (runParser t w []).map fun outs => (outs.filter fun p => p.2).map Prod.fst

/-- A well-nested weave body: body lines, header lines, and properly nested
`I`/`D` blocks.  `block b n inner rest` is an `I n` (when `b`) or `D n`
(when `¬b`) block with contents `inner`, followed by `rest`. -/
inductive WDoc where
  | nil : WDoc
  | plain : String → WDoc → WDoc
  | meta : WDoc → WDoc
  | block : Bool → Nat → WDoc → WDoc → WDoc

/-- The stream of a well-nested weave body. -/
def flatten : WDoc → List WLine
  | WDoc.nil => []
  | WDoc.plain s r => WLine.plain s :: flatten r
  | WDoc.meta r => WLine.meta :: flatten r
  | WDoc.block b n inner r =>
      (if b then WLine.ins n else WLine.del n) :: (flatten inner ++ WLine.endb n :: flatten r)

/-- The declarative keep semantics of the spec: every body line of the
document paired with the keep condition computed from the list of blocks
that enclose it (`env`, innermost first). -/
def docPlains (t : Nat) (env : List (Bool × Nat)) : WDoc → List (String × Bool)
  | WDoc.nil => []
  | WDoc.plain s r => (s, keepState t env) :: docPlains t env r
  | WDoc.meta r => docPlains t env r
  | WDoc.block b n inner r => docPlains t ((b, n) :: env) inner ++ docPlains t env r

/-- Modelled from the spec: `parse_to(stop)` runs until EOF or until the body
line with 1-based kept index `stop` would be produced; it returns the index at
which it stopped, `0` meaning EOF.  `c` is the index the next kept body line
would get. -/
def parseTo (t stop : Nat) : List WLine → List (Bool × Nat) → Nat → Option Nat
  | [], _, _ => some 0
  | WLine.meta :: rest, st, c => parseTo t stop rest st c
  | WLine.ins n :: rest, st, c => parseTo t stop rest ((true, n) :: st) c
  | WLine.del n :: rest, st, c => parseTo t stop rest ((false, n) :: st) c
  | WLine.endb _ :: _, [], _ => none
  | WLine.endb n :: rest, (_, m) :: st, c =>
      if n = m then parseTo t stop rest st c else none
  | WLine.plain _ :: rest, st, c =>
      if keepState t st then
        if c = stop then some stop else parseTo t stop rest st (c + 1)
      else parseTo t stop rest st c

/-- The number of body lines of a well-nested body kept for target `t`. -/
def keptCount (t : Nat) (d : WDoc) : Nat :=
  (docPlains t [] d).countP fun p => p.2

/-- Modelled from the spec: `NewWeave` creates a weave holding delta 1.  It
emits the `s`/`t`/`T` header record (modelled as one meta line), an `I 1`
opener, every content line verbatim, then `E 1`. -/
def newWeave (c : List String) : List WLine :=
  WLine.meta :: WLine.ins 1 :: (c.map WLine.plain ++ [WLine.endb 1])

/-- The largest delta number mentioned by a control line of the stream. -/
def maxDelta : List WLine → Nat
  | [] => 0
  | WLine.ins n :: r => Nat.max n (maxDelta r)
  | WLine.del n :: r => Nat.max n (maxDelta r)
  | WLine.endb n :: r => Nat.max n (maxDelta r)
  | WLine.meta :: r => maxDelta r
  | WLine.plain _ :: r => maxDelta r

/-- Modelled from the spec: the rewrite pass of the `DeltaWriter` (step 3 of
§4.I), specialised to the full-replacement diff (delete every kept base line,
insert the whole new content), which the spec permits — the diff need not be
minimal, only deterministic and correct.  The pass streams the existing weave
maintaining the keep stack for the base delta `b` and the count `k` of kept
body lines already copied, out of `bTotal` in total; it emits `D t`
immediately before the first kept body line, `E t` immediately after the last
one, and the `I t` block holding the new content `c` at EOF, the position
immediately after the last kept base line.  A malformed stream is an error,
modelled as `none`. -/
def rewriteGo (b t bTotal : Nat) (c : List String) :
    List WLine → List (Bool × Nat) → Nat → Option (List WLine)
  | [], st, _ =>
      if st.isEmpty then
        some (WLine.ins t :: (c.map WLine.plain ++ [WLine.endb t]))
      else none
  | WLine.meta :: rest, st, k =>
      (rewriteGo b t bTotal c rest st k).map fun o => WLine.meta :: o
  | WLine.ins n :: rest, st, k =>
      (rewriteGo b t bTotal c rest ((true, n) :: st) k).map fun o => WLine.ins n :: o
  | WLine.del n :: rest, st, k =>
      (rewriteGo b t bTotal c rest ((false, n) :: st) k).map fun o => WLine.del n :: o
  | WLine.endb _ :: _, [], _ => none
  | WLine.endb n :: rest, (_, m) :: st, k =>
      if n = m then (rewriteGo b t bTotal c rest st k).map fun o => WLine.endb n :: o
      else none
  | WLine.plain s :: rest, st, k =>
      if keepState b st then
        (rewriteGo b t bTotal c rest st (k + 1)).map fun o =>
          (if k = 0 then [WLine.del t] else []) ++
            WLine.plain s :: ((if k + 1 = bTotal then [WLine.endb t] else []) ++ o)
      else
        (rewriteGo b t bTotal c rest st k).map fun o => WLine.plain s :: o

/-- Modelled from the spec: the `DeltaWriter`.  It appends delta
`t = maxDelta + 1` against base delta `base`: it parses the existing weave
with target `base` to materialise the kept base lines (here only their count
is needed by the rewrite pass), rewrites the stream splicing the new control
markers, and prepends the new delta's header record. -/
def deltaWriter (w : List WLine) (base : Nat) (c : List String) : Option (List WLine) :=
  match runParser base w [] with
  | none => none
  | some outs =>
      (rewriteGo base (maxDelta w + 1) ((outs.filter fun p => p.2).length) c w [] 0).map
        fun o => WLine.meta :: o

/-- Appending a delta against the latest existing delta, as the test driver
does (`add_weave_delta` passes `base = ` the number of existing deltas). -/
def extendWeave (w : List WLine) (c : List String) : Option (List WLine) :=
  deltaWriter w (maxDelta w) c

/-- The weave obtained by writing `c0` as delta 1 with `NewWeave` and then
appending each element of `cs` in turn with the `DeltaWriter`, always against
the latest delta. -/
def buildWeave (c0 : List String) (cs : List (List String)) : Option (List WLine) :=
  cs.foldl (fun ow c => ow.bind fun w => extendWeave w c) (some (newWeave c0))

/-- The body block of a superseded delta `i` in the canonical shape produced
by the full-replacement delta writer: its content, introduced by `I i` and
deleted by delta `i + 1` (no delete markers when the content is empty). -/
def midBlock (i : Nat) (c : List String) : List WLine :=
  WLine.ins i ::
    ((if c.isEmpty then []
      else WLine.del (i + 1) :: (c.map WLine.plain ++ [WLine.endb (i + 1)])) ++
      [WLine.endb i])

/-- The body block of the latest delta `n`: its content inside `I n … E n`. -/
def lastBlock (n : Nat) (c : List String) : List WLine :=
  WLine.ins n :: (c.map WLine.plain ++ [WLine.endb n])

/-- The block sequence of the canonical weave shape, starting at delta `i`. -/
def blocksFrom : Nat → List (List String) → List WLine
  | _, [] => []
  | i, [c] => lastBlock i c
  | i, c :: c2 :: rest => midBlock i c ++ blocksFrom (i + 1) (c2 :: rest)

/-- The canonical shape of the weave holding the delta contents `cs`
(delta `j` has content `cs[j-1]`): one header record per delta, then the
blocks. -/
def weaveShape (cs : List (List String)) : List WLine :=
  List.replicate cs.length WLine.meta ++ blocksFrom 1 cs

/-- The concatenation of superseded blocks for `cs`, starting at delta `i`. -/
def midBlocks : Nat → List (List String) → List WLine
  | _, [] => []
  | i, c :: rest => midBlock i c ++ midBlocks (i + 1) rest

/-- A run of body lines as a well-nested document. -/
def plainsDoc : List String → WDoc
  | [] => WDoc.nil
  | s :: r => WDoc.plain s (plainsDoc r)

/-- The canonical block sequence as a well-nested document. -/
def shapeDoc : Nat → List (List String) → WDoc
  | _, [] => WDoc.nil
  | i, [c] => WDoc.block true i (plainsDoc c) WDoc.nil
  | i, c :: c2 :: rest =>
      WDoc.block true i
        (if c.isEmpty then WDoc.nil
         else WDoc.block false (i + 1) (plainsDoc c) WDoc.nil)
        (shapeDoc (i + 1) (c2 :: rest))

/-- The kept content of a parser trace. -/
def keptOf (l : List (String × Bool)) : List String :=
  (l.filter fun p => p.2).map Prod.fst

/-- The non-DIR node kinds of the tree model (`f`, `l`, `p`, `s`, `c`, `b`). -/
inductive FKind where
  | file : FKind
  | link : FKind
  | fifo : FKind
  | sock : FKind
  | chr : FKind
  | blk : FKind
  deriving DecidableEq, Repr

/-- A non-directory node: byte-sequence name, kind, and attribute map
(association list of key/value byte strings, in map iteration order). -/
structure FEntry where
  name : List Nat
  kind : FKind
  atts : List (List Nat × List Nat)
  deriving DecidableEq, Repr

mutual
/-- Modelled from the spec: the tree model (the `SureTree` of the rsure crate,
absent from the in-repo sources).  A tree node is a DIR with a name, an
attribute map, the ordered child directories and the ordered child
files/other nodes. -/
inductive STree where
  | mk : List Nat → List (List Nat × List Nat) → STList → List FEntry → STree
/-- The child-directory list of a tree node. -/
inductive STList where
  | nil : STList
  | cons : STree → STList → STList
end

/-- Byte that must be escaped on the wire: outside printable ASCII or in
`{=, \, space}` (space is below `0x21`). -/
def escCond (b : Nat) : Bool := b < 33 || 126 < b || b == 61 || b == 92

/-- Lowercase hex digit of a nibble. -/
def hexDigit (n : Nat) : Nat := if n < 10 then 48 + n else 87 + n

/-- Modelled from the spec: escape one byte (`=HH` with lowercase hex when
required, the byte itself otherwise). -/
def escByte (b : Nat) : List Nat :=
  if escCond b then [61, hexDigit (b / 16), hexDigit (b % 16)] else [b]

/-- Modelled from the spec: the attribute/name escape codec, encoding side. -/
def escape : List Nat → List Nat
  | [] => []
  | b :: r => escByte b ++ escape r

/-- Hex digit value of a byte, if it is a decimal digit or lowercase hex. -/
def unhex (d : Nat) : Option Nat :=
  if 48 ≤ d ∧ d ≤ 57 then some (d - 48)
  else if 97 ≤ d ∧ d ≤ 102 then some (d - 87)
  else none

/-- Modelled from the spec: the escape codec, decoding side; malformed input
(truncated or non-hex `=HH`) is a format error, modelled as `none`. -/
def unescape : List Nat → Option (List Nat)
  | [] => some []
  | b :: r =>
      if b = 61 then
        match r with
        | h :: lo :: r2 =>
            match unhex h, unhex lo with
            | some a, some b2 => (unescape r2).map fun l => (16 * a + b2) :: l
            | _, _ => none
        | _ => none
      else (unescape r).map fun l => b :: l

/-- Modelled from the spec: the attribute bytes of a line — `key value` pairs
separated by single spaces, keys verbatim, values escaped. -/
def attBytes : List (List Nat × List Nat) → List Nat
  | [] => []
  | (k, v) :: rest =>
      k ++ 32 :: escape v ++ (if rest.isEmpty then [] else 32 :: attBytes rest)

/-- Modelled from the spec: one entry line — kind character, escaped name,
space, `[`, the attribute bytes, `]`. -/
def entLine (kc : Nat) (name : List Nat) (atts : List (List Nat × List Nat)) :
    List Nat :=
  kc :: (escape name ++ 32 :: 91 :: (attBytes atts ++ [93]))

/-- The kind character of a non-directory entry. -/
def kindChar : FKind → Nat
  | FKind.file => 102
  | FKind.link => 108
  | FKind.fifo => 112
  | FKind.sock => 115
  | FKind.chr => 99
  | FKind.blk => 98

/-- The kind denoted by a kind character, if any. -/
def charKind (b : Nat) : Option FKind :=
  if b = 102 then some FKind.file
  else if b = 108 then some FKind.link
  else if b = 112 then some FKind.fifo
  else if b = 115 then some FKind.sock
  else if b = 99 then some FKind.chr
  else if b = 98 then some FKind.blk
  else none

/-- The line of a non-directory entry. -/
def fileLine (f : FEntry) : List Nat := entLine (kindChar f.kind) f.name f.atts

mutual
/-- Modelled from the spec: the serializer body (§4.D).  A directory emits its
`d` line, the lines of its child directories, a `-` separator line, the lines
of its files, and a closing `u` line. -/
def treeLines : STree → List (List Nat)
  | STree.mk name atts dirs files =>
      entLine 100 name atts ::
        (tlistLines dirs ++ ([45] :: (files.map fileLine ++ [[117]])))
/-- The serialized lines of a child-directory list. -/
def tlistLines : STList → List (List Nat)
  | STList.nil => []
  | STList.cons t ts => treeLines t ++ tlistLines ts
end

/-- The header magic line `asure-2.0`. -/
def magicLine : List Nat := [97, 115, 117, 114, 101, 45, 50, 46, 48]

/-- Modelled from the spec: the full serialized form — magic, blank line, then
the tree body, each element one line of the line-oriented stream. -/
def serialize (t : STree) : List (List Nat) := magicLine :: [] :: treeLines t

/-- Split a byte string at the first space: the part before it and the
remainder (starting with the space), or the whole string if no space. -/
def spanSp : List Nat → List Nat × List Nat
  | [] => ([], [])
  | b :: r =>
      if b = 32 then ([], b :: r)
      else
        let p := spanSp r
        (b :: p.1, p.2)

/-- Split a byte string on spaces into tokens. -/
def splitSp : List Nat → List (List Nat)
  | [] => [[]]
  | b :: r =>
      if b = 32 then [] :: splitSp r
      else
        match splitSp r with
        | [] => [[b]]
        | tk :: tks => (b :: tk) :: tks

/-- Pair up attribute tokens `key value key value …`, unescaping the values;
an odd token count or a malformed value is a format error. -/
def pairTokens : List (List Nat) → Option (List (List Nat × List Nat))
  | [] => some []
  | [_] => none
  | k :: v :: rest =>
      match unescape v with
      | none => none
      | some vv => (pairTokens rest).map fun l => (k, vv) :: l

/-- Parse the bytes between `[` and `]` as an attribute map. -/
def parseAtts (bytes : List Nat) : Option (List (List Nat × List Nat)) :=
  if bytes.isEmpty then some [] else pairTokens (splitSp bytes)

/-- Parse an entry line after its kind character: escaped name, space, `[`,
attribute bytes, `]`. -/
def parseEntBody (l : List Nat) : Option (List Nat × List (List Nat × List Nat)) :=
  let p := spanSp l
  match unescape p.1, p.2 with
  | some name, 32 :: 91 :: arest =>
      match arest.reverse with
      | 93 :: revBody =>
          match parseAtts revBody.reverse with
          | some atts => some (name, atts)
          | none => none
      | _ => none
  | _, _ => none

/-- Modelled from the spec: parse the file list of a directory — entry lines
until the closing `u` line. -/
def parseFilesLoop : List (List Nat) → Option (List FEntry × List (List Nat))
  | [] => none
  | line :: rest =>
      if line = [117] then some ([], rest)
      else
        match line with
        | [] => none
        | kc :: body =>
            match charKind kc, parseEntBody body with
            | some k, some (name, atts) =>
                (parseFilesLoop rest).map fun p => (⟨name, k, atts⟩ :: p.1, p.2)
            | _, _ => none

/-- Whether the next line opens a directory entry (`d` line). -/
def headIsDir : List (List Nat) → Bool
  | (100 :: _) :: _ => true
  | _ => false

mutual
/-- Modelled from the spec: the recursive-descent deserializer (§4.D), with a
fuel argument bounding the recursion depth.  A directory is its `d` line, its
child directories, a `-` line, its files, and a `u` line; any deviation is a
format error, modelled as `none`. -/
def parseTreeF : Nat → List (List Nat) → Option (STree × List (List Nat))
  | 0, _ => none
  | Nat.succ fuel, lines =>
      match lines with
      | [] => none
      | line :: rest =>
          match line with
          | 100 :: body =>
              match parseEntBody body with
              | none => none
              | some (name, atts) =>
                  match parseDirsF fuel rest with
                  | none => none
                  | some (dirs, rest2) =>
                      match rest2 with
                      | [] => none
                      | l2 :: rest3 =>
                          if l2 = [45] then
                            match parseFilesLoop rest3 with
                            | none => none
                            | some (files, rest4) =>
                                some (STree.mk name atts dirs files, rest4)
                          else none
          | _ => none
/-- Parse consecutive child directories: as long as the next line is a `d`
line, parse one subtree and continue. -/
def parseDirsF : Nat → List (List Nat) → Option (STList × List (List Nat))
  | 0, _ => none
  | Nat.succ fuel, lines =>
      if headIsDir lines then
        match parseTreeF fuel lines with
        | none => none
        | some (t, rest) =>
            match parseDirsF fuel rest with
            | none => none
            | some (ts, rest2) => some (STList.cons t ts, rest2)
      else some (STList.nil, lines)
end

/-- Modelled from the spec: the full deserializer — magic line, blank line,
the tree body consuming the whole stream. -/
def deserialize (ls : List (List Nat)) : Option STree :=
  match ls with
  | m :: b :: rest =>
      if m = magicLine ∧ b = [] then
        match parseTreeF (rest.length + 1) rest with
        | some (t, []) => some t
        | _ => none
      else none
  | _ => none

mutual
/-- Fuel needed by `parseTreeF` on the serialization of a tree. -/
def pmTree : STree → Nat
  | STree.mk _ _ dirs _ => 1 + pmDirs dirs
/-- Fuel needed by `parseDirsF` on the serialization of a directory list. -/
def pmDirs : STList → Nat
  | STList.nil => 1
  | STList.cons t ts => 1 + Nat.max (pmTree t) (pmDirs ts)
end

/-- Well-formedness of an attribute map for the wire format: keys nonempty
printable-ASCII without spaces, values bytes. -/
def wfAtts (atts : List (List Nat × List Nat)) : Bool :=
  atts.all fun p =>
    (!p.1.isEmpty && p.1.all fun b => 33 ≤ b && b ≤ 126) && p.2.all (· < 256)

/-- Well-formedness of a name for the wire format: a byte string. -/
def wfName (name : List Nat) : Bool := name.all (· < 256)

/-- Well-formedness of a file entry. -/
def wfFile (f : FEntry) : Bool := wfName f.name && wfAtts f.atts

mutual
/-- Well-formedness of a tree for the wire format. -/
def wfTree : STree → Bool
  | STree.mk name atts dirs files =>
      wfName name && wfAtts atts && wfDirs dirs && files.all wfFile
/-- Well-formedness of a directory list. -/
def wfDirs : STList → Bool
  | STList.nil => true
  | STList.cons t ts => wfTree t && wfDirs ts
end

/-- A sample well-formed tree used to witness the round trip. -/
def sampleTree : STree :=
  STree.mk [97] [([117, 105, 100], [48])]
    (STList.cons (STree.mk [98, 61, 200] [([112, 101, 114, 109], [55, 53, 53])]
      STList.nil []) STList.nil)
    [⟨[99, 32], FKind.file, [([115, 105, 122, 101], [48]), ([117, 105, 100], [49, 50])]⟩]

/-- Byte-lexicographic three-way comparison of names/keys. -/
def lexCmp : List Nat → List Nat → Ordering
  | [], [] => Ordering.eq
  | [], _ :: _ => Ordering.lt
  | _ :: _, [] => Ordering.gt
  | a :: as, b :: bs =>
      if a < b then Ordering.lt
      else if b < a then Ordering.gt
      else lexCmp as bs

/-- Attribute-map lookup (association list). -/
def lookupA (k : List Nat) : List (List Nat × List Nat) → Option (List Nat)
  | [] => none
  | (k2, v) :: r => if k2 = k then some v else lookupA k r

/-- The attribute keys whose values differ between two maps (keys present in
either map, with differing lookups — a missing key counts as differing). -/
def attsDiff (o n : List (List Nat × List Nat)) : List (List Nat) :=
  ((o.map Prod.fst) ++ ((n.map Prod.fst).filter fun k => !(o.map Prod.fst).contains k)).filter
    fun k => decide (lookupA k o ≠ lookupA k n)

/-- The kind carried by comparator events. -/
inductive EKind where
  | dir : EKind
  | nondir : FKind → EKind
  deriving DecidableEq, Repr

/-- A reified visitor callback of the comparator. -/
inductive Event where
  | enter : List (List Nat) → Event
  | leave : List (List Nat) → Event
  | added : List (List Nat) → EKind → Event
  | removed : List (List Nat) → EKind → Event
  | changed : List (List Nat) → EKind → List (List Nat) → Event
  deriving DecidableEq, Repr

/-- The `ino` attribute key. -/
def inoKey : List Nat := [105, 110, 111]

/-- The `ctime` attribute key. -/
def ctimeKey : List Nat := [99, 116, 105, 109, 101]

/-- Modelled from the spec: compare two same-name non-directory entries.  With
equal kinds, the attribute diff drives a `changed` event, except that on a
FILE a diff consisting only of `ino`/`ctime` is not reported; with different
kinds the entry is reported as removed plus added. -/
def compareFileEntry (path : List (List Nat)) (o n : FEntry) : List Event :=
  if o.kind = n.kind then
    let d := attsDiff o.atts n.atts
    let sig := if o.kind = FKind.file then
        d.filter fun k => decide (k ≠ inoKey ∧ k ≠ ctimeKey)
      else d
    if sig.isEmpty then []
    else [Event.changed (path ++ [n.name]) (EKind.nondir n.kind) d]
  else
    [Event.removed (path ++ [o.name]) (EKind.nondir o.kind),
     Event.added (path ++ [n.name]) (EKind.nondir n.kind)]

/-- Modelled from the spec: merge-compare the sorted file lists of a
directory, emitting added/removed/changed events. -/
def compareFiles (path : List (List Nat)) : List FEntry → List FEntry → List Event
  | [], [] => []
  | [], n :: ns =>
      Event.added (path ++ [n.name]) (EKind.nondir n.kind) :: compareFiles path [] ns
  | o :: os, [] =>
      Event.removed (path ++ [o.name]) (EKind.nondir o.kind) :: compareFiles path os []
  | o :: os, n :: ns =>
      match lexCmp o.name n.name with
      | Ordering.lt =>
          Event.removed (path ++ [o.name]) (EKind.nondir o.kind) ::
            compareFiles path os (n :: ns)
      | Ordering.gt =>
          Event.added (path ++ [n.name]) (EKind.nondir n.kind) ::
            compareFiles path (o :: os) ns
      | Ordering.eq => compareFileEntry path o n ++ compareFiles path os ns
termination_by os ns => os.length + ns.length

/-- The name of a tree node. -/
def treeName : STree → List Nat
  | STree.mk n _ _ _ => n

mutual
/-- Modelled from the spec: the streaming comparator (§4.F).  It enters the
directory, reports a directory attribute diff, merge-compares the sorted
child-directory lists and the sorted file lists, and leaves. -/
def compareTrees (path : List (List Nat)) : STree → STree → List Event
  | STree.mk _ oatts odirs ofiles, STree.mk nname natts ndirs nfiles =>
      Event.enter (path ++ [nname]) ::
        ((if (attsDiff oatts natts).isEmpty then []
          else [Event.changed (path ++ [nname]) EKind.dir (attsDiff oatts natts)]) ++
          (compareTList (path ++ [nname]) odirs ndirs ++
            (compareFiles (path ++ [nname]) ofiles nfiles ++
              [Event.leave (path ++ [nname])])))
termination_by o n => sizeOf o + sizeOf n
/-- Merge-compare the sorted child-directory lists. -/
def compareTList (path : List (List Nat)) : STList → STList → List Event
  | STList.nil, STList.nil => []
  | STList.nil, STList.cons n ns =>
      Event.added (path ++ [treeName n]) EKind.dir :: compareTList path STList.nil ns
  | STList.cons o os, STList.nil =>
      Event.removed (path ++ [treeName o]) EKind.dir :: compareTList path os STList.nil
  | STList.cons o os, STList.cons n ns =>
      match lexCmp (treeName o) (treeName n) with
      | Ordering.lt =>
          Event.removed (path ++ [treeName o]) EKind.dir ::
            compareTList path os (STList.cons n ns)
      | Ordering.gt =>
          Event.added (path ++ [treeName n]) EKind.dir ::
            compareTList path (STList.cons o os) ns
      | Ordering.eq =>
          compareTrees (path ++ [treeName o]) o n ++ compareTList path os ns
termination_by o n => sizeOf o + sizeOf n
end

/-- Whether an event is a pure traversal event (enter/leave). -/
def isStructural : Event → Bool
  | Event.enter _ => true
  | Event.leave _ => true
  | _ => false

/-- The `sha1` attribute key. -/
def sha1Key : List Nat := [115, 104, 97, 49]

/-- The `size` attribute key. -/
def sizeKey : List Nat := [115, 105, 122, 101]

/-- Sorted-map insert (replacing an equal key), as a BTreeMap insert. -/
def insertA (k v : List Nat) : List (List Nat × List Nat) → List (List Nat × List Nat)
  | [] => [(k, v)]
  | (k2, v2) :: r =>
      match lexCmp k k2 with
      | Ordering.lt => (k, v) :: (k2, v2) :: r
      | Ordering.eq => (k, v) :: r
      | Ordering.gt => (k2, v2) :: insertA k v r

/-- Remove a key from an attribute map. -/
def removeA (k : List Nat) (l : List (List Nat × List Nat)) :
    List (List Nat × List Nat) :=
  l.filter fun p => decide (p.1 ≠ k)

/-- Modelled from the spec: hashing one file entry.  For a FILE whose
attributes do not already carry `sha1` and whose `size` is not `0`, the file
is read through the oracle (`none` models a read failure, which is logged and
leaves `sha1` absent); on success the `sha1` attribute is added. -/
def hashFileEnt (oracle : List (List Nat) → Option (List Nat))
    (path : List (List Nat)) (f : FEntry) : FEntry :=
  if f.kind = FKind.file ∧ lookupA sha1Key f.atts = none ∧
      lookupA sizeKey f.atts ≠ some [48] then
    match oracle (path ++ [f.name]) with
    | some h => ⟨f.name, f.kind, insertA sha1Key h f.atts⟩
    | none => f
  else f

mutual
/-- Modelled from the spec: `hash_update` walks the tree in canonical order
and adds the `sha1` attribute to the FILE entries that need hashing; the
oracle stands for reading and hashing the file at a path. -/
def hashUpdate (oracle : List (List Nat) → Option (List Nat))
    (path : List (List Nat)) : STree → STree
  | STree.mk name atts dirs files =>
      STree.mk name atts (hashUpdateL oracle (path ++ [name]) dirs)
        (files.map (hashFileEnt oracle (path ++ [name])))
/-- `hash_update` over a child-directory list. -/
def hashUpdateL (oracle : List (List Nat) → Option (List Nat))
    (path : List (List Nat)) : STList → STList
  | STList.nil => STList.nil
  | STList.cons t ts =>
      STList.cons (hashUpdate oracle path t) (hashUpdateL oracle path ts)
end

/-- The frame condition on one file entry: name and kind unchanged, and the
attributes either untouched or exactly extended by a `sha1` key that was
previously absent — and that only on a FILE. -/
def fentryFrame (o n : FEntry) : Bool :=
  o.name == n.name && o.kind == n.kind &&
    (n.atts == o.atts ||
      (o.kind == FKind.file && removeA sha1Key n.atts == o.atts &&
        (lookupA sha1Key o.atts).isNone))

/-- The frame condition on a file list: pairwise, in order. -/
def filesFrame : List FEntry → List FEntry → Bool
  | [], [] => true
  | o :: os, n :: ns => fentryFrame o n && filesFrame os ns
  | _, _ => false

mutual
/-- The frame condition on trees: same name, same directory attributes, the
same child structure in the same order, and file entries satisfying
`fentryFrame`. -/
def treeFrame : STree → STree → Bool
  | STree.mk n1 a1 d1 f1, STree.mk n2 a2 d2 f2 =>
      n1 == n2 && a1 == a2 && tlistFrame d1 d2 && filesFrame f1 f2
/-- The frame condition on child-directory lists. -/
def tlistFrame : STList → STList → Bool
  | STList.nil, STList.nil => true
  | STList.cons t ts, STList.cons u us => treeFrame t u && tlistFrame ts us
  | _, _ => false
end

/-- Byte-lexicographic comparison of tag keys (Rust `String` ordering on the
ASCII tags used here). -/
def lexCmpC (a b : List Char) : Ordering :=
  lexCmp (a.map Char.toNat) (b.map Char.toNat)

/-- BTreeMap insert for the tag map: sorted insert replacing an equal key. -/
def insertTag (k v : List Char) :
    List (List Char × List Char) → List (List Char × List Char)
  | [] => [(k, v)]
  | (k2, v2) :: r =>
      match lexCmpC k k2 with
      | Ordering.lt => (k, v) :: (k2, v2) :: r
      | Ordering.eq => (k, v) :: r
      | Ordering.gt => (k2, v2) :: insertTag k v r

/-- The `decode_tag` of `src/main.rs`: `tag.splitn(2, '=')` yields the part
before the first `=` and the remainder; with no `=` present the function
panics (`Tag must be key=value`), modelled as `none`. -/
def decode_tag : List Char → Option (List Char × List Char)
  | [] => none
  | c :: r =>
      if c = '=' then some ([], r)
      else (decode_tag r).map fun p => (c :: p.1, p.2)

/-- Collect decoded tags into a BTreeMap, later entries replacing earlier
ones with the same key. -/
def collectTags : List (List Char) → List (List Char × List Char) →
    Option (List (List Char × List Char))
  | [], acc => some acc
  | t :: r, acc =>
      match decode_tag t with
      | none => none
      | some kv => collectTags r (insertTag kv.1 kv.2 acc)

/-- The `decode_tags` of `src/main.rs`: `None` yields the empty map, `Some`
decodes every tag and collects the pairs into a `BTreeMap`. -/
def decode_tags (tags : Option (List (List Char))) :
    Option (List (List Char × List Char)) :=
  match tags with
  | none => some []
  | some ts => collectTags ts []

theorem runParser_flatten_append (t : Nat) (d : WDoc) :
    ∀ (st : List (Bool × Nat)) (rest : List WLine),
      runParser t (flatten d ++ rest) st =
        (runParser t rest st).map fun outs => docPlains t st d ++ outs := by
  induction d with
  | nil =>
      intro st rest
      simp only [flatten, docPlains, List.nil_append]
      cases runParser t rest st <;> simp
  | plain s r ih =>
      intro st rest
      simp only [flatten, List.cons_append, runParser, List.append_eq]
      rw [ih st rest]
      simp only [docPlains]
      cases runParser t rest st <;> simp
  | meta r ih =>
      intro st rest
      simp only [flatten, List.cons_append, runParser, List.append_eq]
      rw [ih st rest]
      simp only [docPlains]
  | block b n inner r ihInner ihR =>
      intro st rest
      cases b
      case false =>
        have hf : flatten (WDoc.block false n inner r) =
            WLine.del n :: (flatten inner ++ WLine.endb n :: flatten r) := rfl
        rw [hf]
        simp only [List.cons_append, runParser, List.append_eq, List.append_assoc]
        rw [ihInner ((false, n) :: st) (WLine.endb n :: (flatten r ++ rest))]
        simp only [runParser, if_true]
        rw [ihR st rest]
        have hd : docPlains t st (WDoc.block false n inner r) =
            docPlains t ((false, n) :: st) inner ++ docPlains t st r := rfl
        rw [hd]
        cases runParser t rest st <;> simp
      case true =>
        have hf : flatten (WDoc.block true n inner r) =
            WLine.ins n :: (flatten inner ++ WLine.endb n :: flatten r) := rfl
        rw [hf]
        simp only [List.cons_append, runParser, List.append_eq, List.append_assoc]
        rw [ihInner ((true, n) :: st) (WLine.endb n :: (flatten r ++ rest))]
        simp only [runParser, if_true]
        rw [ihR st rest]
        have hd : docPlains t st (WDoc.block true n inner r) =
            docPlains t ((true, n) :: st) inner ++ docPlains t st r := rfl
        rw [hd]
        cases runParser t rest st <;> simp

theorem runParser_flatten (t : Nat) (d : WDoc) :
    runParser t (flatten d) [] = some (docPlains t [] d) := by
  have h := runParser_flatten_append t d [] []
  simpa [runParser] using h

/-- C3.  For every well-formed weave stream and target `t`, the parser passes
`keep = true` for a body line iff at least one enclosing `I n` block has
`n ≤ t` and no enclosing `D n` block has `n ≤ t`: the trace of `Sink.plain`
calls of the stack-machine parser coincides with the declarative
enclosing-block semantics of the spec. -/
theorem parser_keep_iff_enclosing (t : Nat) (d : WDoc) :
    runParser t (flatten d) [] = some (docPlains t [] d) :=
  runParser_flatten t d

theorem parseTo_flatten_append (t stop : Nat) (d : WDoc) :
    ∀ (st : List (Bool × Nat)) (rest : List WLine) (c : Nat),
      parseTo t stop (flatten d ++ rest) st c =
        if c ≤ stop ∧ stop < c + (docPlains t st d).countP (fun p => p.2) then
          some stop
        else
          parseTo t stop rest st (c + (docPlains t st d).countP (fun p => p.2)) := by
  induction d with
  | nil =>
      intro st rest c
      simp only [flatten, docPlains, List.nil_append, List.countP_nil, Nat.add_zero]
      rw [if_neg (by omega : ¬ (c ≤ stop ∧ stop < c))]
  | plain s r ih =>
      intro st rest c
      simp only [flatten, docPlains, List.cons_append, parseTo, List.countP_cons,
        List.append_eq]
      by_cases hk : keepState t st
      · simp only [hk, if_true]
        rw [ih st rest (c + 1)]
        have harith : c + 1 + (docPlains t st r).countP (fun p => p.2) =
            c + ((docPlains t st r).countP (fun p => p.2) + 1) := by omega
        rw [harith]
        split_ifs with h1 h2 h3 <;> first | rfl | omega
      · simp only [hk, if_false]
        rw [ih st rest c]
        simp
  | meta r ih =>
      intro st rest c
      simp only [flatten, docPlains, List.cons_append, parseTo, List.append_eq]
      rw [ih st rest c]
  | block b n inner r ihInner ihR =>
      intro st rest c
      cases b
      case false =>
        have hf : flatten (WDoc.block false n inner r) =
            WLine.del n :: (flatten inner ++ WLine.endb n :: flatten r) := rfl
        have hd : docPlains t st (WDoc.block false n inner r) =
            docPlains t ((false, n) :: st) inner ++ docPlains t st r := rfl
        rw [hf, hd]
        simp only [List.cons_append, parseTo, List.append_eq, List.append_assoc,
          List.countP_append]
        rw [ihInner ((false, n) :: st) (WLine.endb n :: (flatten r ++ rest)) c]
        simp only [parseTo, if_true]
        rw [ihR st rest]
        have harith :
            c + (docPlains t ((false, n) :: st) inner).countP (fun p => p.2) +
              (docPlains t st r).countP (fun p => p.2) =
            c + ((docPlains t ((false, n) :: st) inner).countP (fun p => p.2) +
              (docPlains t st r).countP (fun p => p.2)) := by omega
        rw [harith]
        split_ifs <;> first | rfl | omega
      case true =>
        have hf : flatten (WDoc.block true n inner r) =
            WLine.ins n :: (flatten inner ++ WLine.endb n :: flatten r) := rfl
        have hd : docPlains t st (WDoc.block true n inner r) =
            docPlains t ((true, n) :: st) inner ++ docPlains t st r := rfl
        rw [hf, hd]
        simp only [List.cons_append, parseTo, List.append_eq, List.append_assoc,
          List.countP_append]
        rw [ihInner ((true, n) :: st) (WLine.endb n :: (flatten r ++ rest)) c]
        simp only [parseTo, if_true]
        rw [ihR st rest]
        have harith :
            c + (docPlains t ((true, n) :: st) inner).countP (fun p => p.2) +
              (docPlains t st r).countP (fun p => p.2) =
            c + ((docPlains t ((true, n) :: st) inner).countP (fun p => p.2) +
              (docPlains t st r).countP (fun p => p.2)) := by omega
        rw [harith]
        split_ifs <;> first | rfl | omega

/-- C7.  `parse_to(stop)` on a well-formed stream stops exactly at the body
line with 1-based kept index `stop` when that line exists and `stop ≥ 1`, and
otherwise runs to EOF and returns 0; in particular `parse_to 0` always runs to
EOF and returns 0. -/
theorem parse_to_stops_or_eof (t stop : Nat) (d : WDoc) :
    parseTo t stop (flatten d) [] 1 =
      some (if 1 ≤ stop ∧ stop ≤ keptCount t d then stop else 0) := by
  have h := parseTo_flatten_append t stop d [] [] 1
  rw [List.append_nil] at h
  rw [h]
  unfold keptCount
  by_cases hc : 1 ≤ stop ∧ stop < 1 + (docPlains t [] d).countP (fun p => p.2)
  · rw [if_pos hc, if_pos (by omega : 1 ≤ stop ∧ stop ≤ (docPlains t [] d).countP (fun p => p.2))]
  · rw [if_neg hc,
      if_neg (by omega : ¬ (1 ≤ stop ∧ stop ≤ (docPlains t [] d).countP (fun p => p.2)))]
    rfl

theorem parse_eq_keptOf (t : Nat) (w : List WLine) :
    parse t w = (runParser t w []).map keptOf := rfl

theorem keptOf_append (a b : List (String × Bool)) :
    keptOf (a ++ b) = keptOf a ++ keptOf b := by
  simp [keptOf]

theorem keptOf_all_true (c : List String) :
    keptOf (c.map fun s => (s, true)) = c := by
  induction c with
  | nil => rfl
  | cons s r ih => simp [keptOf] at ih ⊢; exact ih

theorem keptOf_all_false (c : List String) :
    keptOf (c.map fun s => (s, false)) = [] := by
  induction c with
  | nil => rfl
  | cons s r ih => simp [keptOf]

theorem flatten_plainsDoc (c : List String) :
    flatten (plainsDoc c) = c.map WLine.plain := by
  induction c with
  | nil => rfl
  | cons s r ih => simp [plainsDoc, flatten, ih]

theorem docPlains_plainsDoc (t : Nat) (env : List (Bool × Nat)) (c : List String) :
    docPlains t env (plainsDoc c) = c.map fun s => (s, keepState t env) := by
  induction c with
  | nil => rfl
  | cons s r ih => simp [plainsDoc, docPlains, ih]

theorem flatten_shapeDoc (i : Nat) (cs : List (List String)) :
    flatten (shapeDoc i cs) = blocksFrom i cs := by
  induction cs generalizing i with
  | nil => rfl
  | cons c rest ih =>
      cases rest with
      | nil =>
          simp [shapeDoc, blocksFrom, lastBlock, flatten, flatten_plainsDoc]
      | cons c2 rest2 =>
          cases c with
          | nil =>
              simp [shapeDoc, blocksFrom, midBlock, flatten, ih]
          | cons s ss =>
              simp [shapeDoc, blocksFrom, midBlock, flatten, flatten_plainsDoc, ih,
                List.isEmpty]

theorem keepState_single (b i : Nat) :
    keepState b [(true, i)] = decide (i ≤ b) := by
  simp [keepState]

theorem keepState_pair (b i j : Nat) :
    keepState b [(false, j), (true, i)] = (decide (i ≤ b) && !decide (j ≤ b)) := by
  simp [keepState]

theorem kept_shapeDoc_below (cs : List (List String)) :
    ∀ i k, k < i → keptOf (docPlains k [] (shapeDoc i cs)) = [] := by
  induction cs with
  | nil => intro i k _; rfl
  | cons c rest ih =>
      intro i k hk
      cases rest with
      | nil =>
          have hkeep : keepState k [(true, i)] = false := by
            rw [keepState_single]
            simp
            omega
          have hs : shapeDoc i [c] = WDoc.block true i (plainsDoc c) WDoc.nil := rfl
          rw [hs]
          simp only [docPlains, docPlains_plainsDoc, hkeep, List.append_nil]
          exact keptOf_all_false c
      | cons c2 rest2 =>
          cases c with
          | nil =>
              have hs : shapeDoc i ([] :: c2 :: rest2) =
                  WDoc.block true i WDoc.nil (shapeDoc (i + 1) (c2 :: rest2)) := rfl
              rw [hs]
              simp only [docPlains, List.nil_append]
              exact ih (i + 1) k (by omega)
          | cons s ss =>
              have hkeep : keepState k [(false, i + 1), (true, i)] = false := by
                rw [keepState_pair]
                have : ¬ i ≤ k := by omega
                simp [this]
              have hs : shapeDoc i ((s :: ss) :: c2 :: rest2) =
                  WDoc.block true i
                    (WDoc.block false (i + 1) (plainsDoc (s :: ss)) WDoc.nil)
                    (shapeDoc (i + 1) (c2 :: rest2)) := rfl
              rw [hs]
              simp only [docPlains, docPlains_plainsDoc, hkeep, List.append_nil,
                keptOf_append]
              have hkf := keptOf_all_false (s :: ss)
              simp only [List.map_cons] at hkf
              rw [hkf, ih (i + 1) k (by omega)]
              rfl

theorem kept_shapeDoc_at (cs : List (List String)) :
    ∀ i k, i ≤ k → k < i + cs.length →
      keptOf (docPlains k [] (shapeDoc i cs)) = cs.getD (k - i) [] := by
  induction cs with
  | nil => intro i k h1 h2; simp at h2; omega
  | cons c rest ih =>
      intro i k h1 h2
      cases rest with
      | nil =>
          have hki : k = i := by simp at h2; omega
          subst hki
          have hkeep : keepState k [(true, k)] = true := by
            rw [keepState_single]; simp
          have hs : shapeDoc k [c] = WDoc.block true k (plainsDoc c) WDoc.nil := rfl
          rw [hs]
          simp only [docPlains, docPlains_plainsDoc, hkeep, List.append_nil]
          rw [keptOf_all_true]
          simp
      | cons c2 rest2 =>
          by_cases hki : k = i
          · subst hki
            have hrest : keptOf (docPlains k [] (shapeDoc (k + 1) (c2 :: rest2))) = [] :=
              kept_shapeDoc_below (c2 :: rest2) (k + 1) k (by omega)
            cases c with
            | nil =>
                have hs : shapeDoc k ([] :: c2 :: rest2) =
                    WDoc.block true k WDoc.nil (shapeDoc (k + 1) (c2 :: rest2)) := rfl
                rw [hs]
                simp only [docPlains, List.nil_append]
                rw [hrest]
                simp
            | cons s ss =>
                have hkeep : keepState k [(false, k + 1), (true, k)] = true := by
                  rw [keepState_pair]
                  simp
                have hs : shapeDoc k ((s :: ss) :: c2 :: rest2) =
                    WDoc.block true k
                      (WDoc.block false (k + 1) (plainsDoc (s :: ss)) WDoc.nil)
                      (shapeDoc (k + 1) (c2 :: rest2)) := rfl
                rw [hs]
                simp only [docPlains, docPlains_plainsDoc, hkeep, List.append_nil,
                  keptOf_append]
                have hkf := keptOf_all_true (s :: ss)
                simp only [List.map_cons] at hkf
                rw [hkf, hrest]
                simp
          · have hik : i < k := by omega
            have hrest := ih (i + 1) k (by omega) (by simp at h2 ⊢; omega)
            have hidx : k - i = (k - (i + 1)) + 1 := by omega
            cases c with
            | nil =>
                have hs : shapeDoc i ([] :: c2 :: rest2) =
                    WDoc.block true i WDoc.nil (shapeDoc (i + 1) (c2 :: rest2)) := rfl
                rw [hs]
                simp only [docPlains, List.nil_append]
                rw [hrest, hidx, List.getD_cons_succ]
            | cons s ss =>
                have hkeep : keepState k [(false, i + 1), (true, i)] = false := by
                  rw [keepState_pair]
                  have hle : i + 1 ≤ k := by omega
                  simp [hle]
                have hs : shapeDoc i ((s :: ss) :: c2 :: rest2) =
                    WDoc.block true i
                      (WDoc.block false (i + 1) (plainsDoc (s :: ss)) WDoc.nil)
                      (shapeDoc (i + 1) (c2 :: rest2)) := rfl
                rw [hs]
                simp only [docPlains, docPlains_plainsDoc, hkeep, List.append_nil,
                  keptOf_append]
                have hkf := keptOf_all_false (s :: ss)
                simp only [List.map_cons] at hkf
                rw [hkf, hrest, hidx, List.getD_cons_succ]
                simp

theorem runParser_replicate_meta (t m : Nat) (rest : List WLine) (st : List (Bool × Nat)) :
    runParser t (List.replicate m WLine.meta ++ rest) st = runParser t rest st := by
  induction m with
  | zero => rfl
  | succ m ih => simp [List.replicate_succ, runParser, ih]

theorem runParser_weaveShape (k : Nat) (cs : List (List String)) :
    runParser k (weaveShape cs) [] = some (docPlains k [] (shapeDoc 1 cs)) := by
  unfold weaveShape
  rw [runParser_replicate_meta, ← flatten_shapeDoc, runParser_flatten]

theorem parse_weaveShape (cs : List (List String)) (k : Nat)
    (h1 : 1 ≤ k) (h2 : k ≤ cs.length) :
    parse k (weaveShape cs) = some (cs.getD (k - 1) []) := by
  rw [parse_eq_keptOf, runParser_weaveShape]
  have hk := kept_shapeDoc_at cs 1 k h1 (by omega)
  simp [hk]

theorem maxDelta_append (a b : List WLine) :
    maxDelta (a ++ b) = Nat.max (maxDelta a) (maxDelta b) := by
  induction a with
  | nil => simp [maxDelta]
  | cons x r ih =>
      cases x <;> simp [maxDelta, ih, Nat.max_assoc]

theorem maxDelta_plains (c : List String) : maxDelta (c.map WLine.plain) = 0 := by
  induction c with
  | nil => rfl
  | cons s r ih => simp [maxDelta, ih]

theorem maxDelta_replicate_meta (m : Nat) :
    maxDelta (List.replicate m WLine.meta) = 0 := by
  induction m with
  | zero => rfl
  | succ m ih => simp [List.replicate_succ, maxDelta, ih]

theorem maxDelta_lastBlock (i : Nat) (c : List String) :
    maxDelta (lastBlock i c) = i := by
  simp [lastBlock, maxDelta, maxDelta_append, maxDelta_plains]

theorem maxDelta_midBlock_le (i : Nat) (c : List String) :
    maxDelta (midBlock i c) ≤ i + 1 := by
  cases c with
  | nil => simp [midBlock, maxDelta]
  | cons s ss =>
      simp [midBlock, maxDelta, maxDelta_append, maxDelta_plains]

theorem maxDelta_blocksFrom (i : Nat) (c : List String) (rest : List (List String)) :
    maxDelta (blocksFrom i (c :: rest)) = i + rest.length := by
  induction rest generalizing i c with
  | nil => simp [blocksFrom, maxDelta_lastBlock]
  | cons c2 rest2 ih =>
      have h := maxDelta_midBlock_le i c
      have hle : maxDelta (midBlock i c) ≤ i + 1 + rest2.length := by omega
      have hmax : (maxDelta (midBlock i c)).max (i + 1 + rest2.length) =
          i + 1 + rest2.length := by
        apply Nat.le_antisymm
        · exact Nat.max_le.mpr ⟨hle, Nat.le_refl _⟩
        · exact Nat.le_max_right _ _
      simp only [blocksFrom, maxDelta_append, ih (i + 1) c2, hmax, List.length_cons]
      omega

theorem maxDelta_weaveShape (c : List String) (rest : List (List String)) :
    maxDelta (weaveShape (c :: rest)) = (c :: rest).length := by
  simp [weaveShape, maxDelta_append, maxDelta_replicate_meta, maxDelta_blocksFrom]
  omega

theorem rewriteGo_skip_plains (b t B : Nat) (c : List String)
    (st : List (Bool × Nat)) (hk : keepState b st = false) :
    ∀ (l : List String) (rest : List WLine) (k : Nat),
      rewriteGo b t B c (l.map WLine.plain ++ rest) st k =
        (rewriteGo b t B c rest st k).map fun o => l.map WLine.plain ++ o := by
  intro l
  induction l with
  | nil =>
      intro rest k
      simp
  | cons s ls ih =>
      intro rest k
      have hstep : rewriteGo b t B c
          (WLine.plain s :: (ls.map WLine.plain ++ rest)) st k =
          (rewriteGo b t B c (ls.map WLine.plain ++ rest) st k).map
            fun o => WLine.plain s :: o := by
        simp [rewriteGo, hk]
      simp only [List.map_cons, List.cons_append]
      rw [hstep, ih rest k]
      cases rewriteGo b t B c rest st k <;> simp

theorem rewriteGo_midBlock (b t B : Nat) (c : List String) (i : Nat)
    (hb : i + 1 ≤ b) (cc : List String) (rest : List WLine) (k : Nat) :
    rewriteGo b t B c (midBlock i cc ++ rest) [] k =
      (rewriteGo b t B c rest [] k).map fun o => midBlock i cc ++ o := by
  cases cc with
  | nil =>
      cases h : rewriteGo b t B c rest [] k <;>
        simp [midBlock, rewriteGo, h]
  | cons s ss =>
      have hkeep : keepState b [(false, i + 1), (true, i)] = false := by
        rw [keepState_pair]
        simp [hb]
      have hlist : midBlock i (s :: ss) ++ rest =
          WLine.ins i :: WLine.del (i + 1) ::
            ((s :: ss).map WLine.plain ++
              (WLine.endb (i + 1) :: WLine.endb i :: rest)) := by
        simp [midBlock]
      rw [hlist]
      have h1 : rewriteGo b t B c
          (WLine.ins i :: WLine.del (i + 1) ::
            ((s :: ss).map WLine.plain ++
              (WLine.endb (i + 1) :: WLine.endb i :: rest))) [] k =
          (rewriteGo b t B c
            ((s :: ss).map WLine.plain ++
              (WLine.endb (i + 1) :: WLine.endb i :: rest))
            [(false, i + 1), (true, i)] k).map
            fun o => WLine.ins i :: WLine.del (i + 1) :: o := by
        simp only [rewriteGo, Option.map_map, Function.comp_def]
      rw [h1, rewriteGo_skip_plains b t B c _ hkeep]
      have h2 : rewriteGo b t B c
          (WLine.endb (i + 1) :: WLine.endb i :: rest)
          [(false, i + 1), (true, i)] k =
          (rewriteGo b t B c rest [] k).map
            fun o => WLine.endb (i + 1) :: WLine.endb i :: o := by
        simp [rewriteGo, Option.map_map, Function.comp_def]
      rw [h2]
      cases rewriteGo b t B c rest [] k <;> simp [midBlock]

theorem rewriteGo_midBlocks (b t B : Nat) (c : List String) :
    ∀ (css : List (List String)) (i : Nat), i + css.length ≤ b →
      ∀ (rest : List WLine) (k : Nat),
        rewriteGo b t B c (midBlocks i css ++ rest) [] k =
          (rewriteGo b t B c rest [] k).map fun o => midBlocks i css ++ o := by
  intro css
  induction css with
  | nil =>
      intro i _ rest k
      simp [midBlocks]
  | cons cc css2 ih =>
      intro i hi rest k
      simp only [midBlocks, List.append_assoc]
      rw [rewriteGo_midBlock b t B c i (by simp at hi; omega) cc
        (midBlocks (i + 1) css2 ++ rest) k]
      rw [ih (i + 1) (by simp at hi; omega) rest k]
      cases rewriteGo b t B c rest [] k <;> simp

theorem rewriteGo_replicate_meta (b t B : Nat) (c : List String) (m : Nat)
    (rest : List WLine) (st : List (Bool × Nat)) (k : Nat) :
    rewriteGo b t B c (List.replicate m WLine.meta ++ rest) st k =
      (rewriteGo b t B c rest st k).map fun o => List.replicate m WLine.meta ++ o := by
  induction m with
  | zero => cases h : rewriteGo b t B c rest st k <;> simp [h]
  | succ m ih =>
      simp only [List.replicate_succ, List.cons_append, rewriteGo, List.append_eq]
      rw [ih]
      cases h : rewriteGo b t B c rest st k <;> simp [h, List.replicate_succ]

theorem rewriteGo_kept_run (b t B : Nat) (c : List String)
    (st : List (Bool × Nat)) (hk : keepState b st = true) :
    ∀ (l : List String) (k : Nat), 1 ≤ k → k + l.length = B →
      ∀ (rest : List WLine),
        rewriteGo b t B c (l.map WLine.plain ++ rest) st k =
          (rewriteGo b t B c rest st B).map fun o =>
            (l.map WLine.plain ++ (if l.isEmpty then [] else [WLine.endb t])) ++ o := by
  intro l
  induction l with
  | nil =>
      intro k h1 hB rest
      simp only [List.length_nil, Nat.add_zero] at hB
      rw [hB]
      cases h : rewriteGo b t B c rest st B <;> simp [h]
  | cons s ls ih =>
      intro k h1 hB rest
      have hk0 : ¬ k = 0 := by omega
      cases ls with
      | nil =>
          have hlast : k + 1 = B := by
            simp only [List.length_cons, List.length_nil] at hB
            omega
          cases h : rewriteGo b t B c rest st B with
          | none =>
              simp [rewriteGo, hk, hk0, hlast, h]
          | some o =>
              simp [rewriteGo, hk, hk0, hlast, h]
      | cons s2 ls2 =>
          have hne : ¬ (k + 1 = B) := by
            simp only [List.length_cons] at hB
            omega
          have hstep : rewriteGo b t B c
              (WLine.plain s :: (List.map WLine.plain (s2 :: ls2) ++ rest)) st k =
              (rewriteGo b t B c (List.map WLine.plain (s2 :: ls2) ++ rest) st (k + 1)).map
                fun o => WLine.plain s :: o := by
            simp [rewriteGo, hk, hk0, hne]
          have hih := ih (k + 1) (by omega)
            (by simp only [List.length_cons] at hB ⊢; omega) rest
          rw [show List.map WLine.plain (s :: s2 :: ls2) ++ rest =
              WLine.plain s :: (List.map WLine.plain (s2 :: ls2) ++ rest) from by simp]
          rw [hstep, hih]
          cases h : rewriteGo b t B c rest st B <;> simp [h]

theorem rewriteGo_kept_run0 (b t B : Nat) (c : List String)
    (st : List (Bool × Nat)) (hk : keepState b st = true)
    (l : List String) (hB : l.length = B) (rest : List WLine) :
    rewriteGo b t B c (l.map WLine.plain ++ rest) st 0 =
      (rewriteGo b t B c rest st B).map fun o =>
        (if l.isEmpty then []
         else WLine.del t :: (l.map WLine.plain ++ [WLine.endb t])) ++ o := by
  cases l with
  | nil =>
      simp only [List.length_nil] at hB
      rw [← hB]
      cases h : rewriteGo b t B c rest st 0 <;> simp [h]
  | cons s ls =>
      cases ls with
      | nil =>
          have hB1 : B = 1 := by
            simp only [List.length_cons, List.length_nil] at hB
            omega
          subst hB1
          cases h : rewriteGo b t 1 c rest st 1 <;> simp [rewriteGo, hk, h]
      | cons s2 ls2 =>
          have hne : (1 : Nat) ≠ B := by
            simp only [List.length_cons] at hB
            omega
          have hstep : rewriteGo b t B c
              (WLine.plain s :: (List.map WLine.plain (s2 :: ls2) ++ rest)) st 0 =
              (rewriteGo b t B c (List.map WLine.plain (s2 :: ls2) ++ rest) st 1).map
                fun o => WLine.del t :: WLine.plain s :: o := by
            simp [rewriteGo, hk, hne]
          rw [show List.map WLine.plain (s :: s2 :: ls2) ++ rest =
              WLine.plain s :: (List.map WLine.plain (s2 :: ls2) ++ rest) from by simp]
          rw [hstep, rewriteGo_kept_run b t B c st hk (s2 :: ls2) 1 (by omega)
            (by simp only [List.length_cons] at hB ⊢; omega) rest]
          cases h : rewriteGo b t B c rest st B <;> simp [h]

theorem rewriteGo_lastBlock (n : Nat) (cn c : List String) :
    rewriteGo n (n + 1) cn.length c (lastBlock n cn) [] 0 =
      some (midBlock n cn ++ lastBlock (n + 1) c) := by
  have hkeep : keepState n [(true, n)] = true := by
    rw [keepState_single]; simp
  have hstep : rewriteGo n (n + 1) cn.length c (lastBlock n cn) [] 0 =
      (rewriteGo n (n + 1) cn.length c
        (cn.map WLine.plain ++ [WLine.endb n]) [(true, n)] 0).map
        fun o => WLine.ins n :: o := by
    simp [lastBlock, rewriteGo]
  rw [hstep,
    rewriteGo_kept_run0 n (n + 1) cn.length c [(true, n)] hkeep cn rfl [WLine.endb n]]
  simp [rewriteGo, midBlock, lastBlock]

theorem midBlocks_append (cs' : List (List String)) (cn : List String) :
    ∀ i, midBlocks i (cs' ++ [cn]) = midBlocks i cs' ++ midBlock (i + cs'.length) cn := by
  induction cs' with
  | nil => intro i; simp [midBlocks]
  | cons c0 cs2 ih =>
      intro i
      simp only [List.cons_append, List.append_eq, midBlocks, ih (i + 1),
        List.length_cons, List.append_assoc]
      have : i + 1 + cs2.length = i + (cs2.length + 1) := by omega
      rw [this]

theorem blocksFrom_split (cs' : List (List String)) (cn : List String) :
    ∀ i, blocksFrom i (cs' ++ [cn]) = midBlocks i cs' ++ lastBlock (i + cs'.length) cn := by
  induction cs' with
  | nil => intro i; simp [blocksFrom, midBlocks]
  | cons c0 cs2 ih =>
      intro i
      cases cs2 with
      | nil =>
          simp [blocksFrom, midBlocks, lastBlock]
      | cons c1 cs3 =>
          have hih := ih (i + 1)
          simp only [List.cons_append] at hih
          show blocksFrom i (c0 :: c1 :: (cs3 ++ [cn])) = _
          rw [show blocksFrom i (c0 :: c1 :: (cs3 ++ [cn])) =
              midBlock i c0 ++ blocksFrom (i + 1) (c1 :: (cs3 ++ [cn])) from rfl]
          rw [hih]
          simp only [midBlocks, List.length_cons, List.append_assoc]
          have harith : i + 1 + (cs3.length + 1) = i + (cs3.length + 1 + 1) := by omega
          rw [harith]

theorem getD_concat {α : Type} (l : List α) (x d : α) :
    (l ++ [x]).getD l.length d = x := by
  induction l with
  | nil => rfl
  | cons y r ih => simp

theorem getD_append_left {α : Type} (l l' : List α) (i : Nat) (d : α)
    (h : i < l.length) : (l ++ l').getD i d = l.getD i d := by
  induction l generalizing i with
  | nil => simp at h
  | cons y r ih =>
      cases i with
      | zero => rfl
      | succ j =>
          simp only [List.cons_append, List.getD_cons_succ]
          exact ih j (by simp at h; omega)

theorem maxDelta_weaveShape_ne (cs : List (List String)) (h : cs ≠ []) :
    maxDelta (weaveShape cs) = cs.length := by
  cases cs with
  | nil => cases h rfl
  | cons c rest => exact maxDelta_weaveShape c rest

theorem extendWeave_shape (cs' : List (List String)) (cn c : List String) :
    extendWeave (weaveShape (cs' ++ [cn])) c =
      some (weaveShape ((cs' ++ [cn]) ++ [c])) := by
  have hne : cs' ++ [cn] ≠ [] := by simp
  have hmax : maxDelta (weaveShape (cs' ++ [cn])) = cs'.length + 1 := by
    rw [maxDelta_weaveShape_ne _ hne]; simp
  have hpar := runParser_weaveShape (cs'.length + 1) (cs' ++ [cn])
  have hkept : keptOf (docPlains (cs'.length + 1) [] (shapeDoc 1 (cs' ++ [cn]))) = cn := by
    rw [kept_shapeDoc_at (cs' ++ [cn]) 1 (cs'.length + 1) (by omega) (by simp)]
    rw [show cs'.length + 1 - 1 = cs'.length from by omega]
    exact getD_concat cs' cn []
  have hlen : ((docPlains (cs'.length + 1) [] (shapeDoc 1 (cs' ++ [cn]))).filter
      (fun p => p.2)).length = cn.length := by
    have h1 : (keptOf (docPlains (cs'.length + 1) []
        (shapeDoc 1 (cs' ++ [cn])))).length = cn.length := by rw [hkept]
    simpa [keptOf] using h1
  have hshape : weaveShape (cs' ++ [cn]) =
      List.replicate (cs'.length + 1) WLine.meta ++
        (midBlocks 1 cs' ++ lastBlock (cs'.length + 1) cn) := by
    unfold weaveShape
    rw [blocksFrom_split]
    rw [show (1 : Nat) + cs'.length = cs'.length + 1 from by omega]
    simp
  unfold extendWeave deltaWriter
  rw [hmax]
  simp only [hpar]
  rw [hlen]
  conv =>
    lhs
    rw [hshape]
  rw [rewriteGo_replicate_meta]
  rw [rewriteGo_midBlocks (cs'.length + 1) (cs'.length + 1 + 1) cn.length c cs' 1
    (by omega) (lastBlock (cs'.length + 1) cn) 0]
  rw [rewriteGo_lastBlock (cs'.length + 1) cn c]
  have htarget : weaveShape ((cs' ++ [cn]) ++ [c]) =
      WLine.meta :: (List.replicate (cs'.length + 1) WLine.meta ++
        (midBlocks 1 cs' ++ (midBlock (cs'.length + 1) cn ++
          lastBlock (cs'.length + 1 + 1) c))) := by
    unfold weaveShape
    rw [blocksFrom_split (cs' ++ [cn]) c 1, midBlocks_append cs' cn 1]
    rw [show (1 : Nat) + cs'.length = cs'.length + 1 from by omega]
    rw [show (1 : Nat) + (cs' ++ [cn]).length = cs'.length + 1 + 1 from by simp; omega]
    rw [show ((cs' ++ [cn]) ++ [c]).length = cs'.length + 1 + 1 from by simp]
    rw [show List.replicate (cs'.length + 1 + 1) WLine.meta =
        WLine.meta :: List.replicate (cs'.length + 1) WLine.meta from rfl]
    simp
  rw [htarget]
  simp

theorem newWeave_shape (c0 : List String) : newWeave c0 = weaveShape [c0] := rfl

theorem extendWeave_shape_ne (cs : List (List String)) (h : cs ≠ []) (c : List String) :
    extendWeave (weaveShape cs) c = some (weaveShape (cs ++ [c])) := by
  induction cs using List.reverseRecOn with
  | nil => cases h rfl
  | append_singleton cs' cn _ih => exact extendWeave_shape cs' cn c

theorem buildWeave_shape (c0 : List String) (cs : List (List String)) :
    buildWeave c0 cs = some (weaveShape (c0 :: cs)) := by
  induction cs using List.reverseRecOn with
  | nil => rw [buildWeave, List.foldl_nil, newWeave_shape]
  | append_singleton l a ih =>
      unfold buildWeave at ih ⊢
      rw [List.foldl_append, ih, List.foldl_cons, List.foldl_nil]
      rw [show (some (weaveShape (c0 :: l))).bind (fun w => extendWeave w a) =
        extendWeave (weaveShape (c0 :: l)) a from rfl]
      rw [extendWeave_shape_ne (c0 :: l) (by simp) a]
      simp

/-- C2.  For every weave built by writing an initial delta with `NewWeave` and
appending each further delta with the `DeltaWriter` (always against the
latest), parsing with target `n` yields exactly the content that was written
as delta `n`. -/
theorem weave_delta_roundtrip (c0 : List String) (cs : List (List String))
    (w : List WLine) (hw : buildWeave c0 cs = some w)
    (n : Nat) (h1 : 1 ≤ n) (h2 : n ≤ (c0 :: cs).length) :
    parse n w = some ((c0 :: cs).getD (n - 1) []) := by
  rw [buildWeave_shape] at hw
  obtain rfl : weaveShape (c0 :: cs) = w := Option.some.inj hw
  exact parse_weaveShape (c0 :: cs) n h1 h2

theorem weave_delta_roundtrip_witness :
    parse 1 (newWeave ["1", "2", "3"]) = some ["1", "2", "3"] :=
  weave_delta_roundtrip ["1", "2", "3"] [] (newWeave ["1", "2", "3"]) rfl 1
    (by decide) (by decide)

/-- C1.  Appending a delta with the `DeltaWriter` against base `b = latest`
produces a weave whose parse at target `latest + 1` is exactly the new
content, while the parse at every prior target `k ≤ latest` is unchanged. -/
theorem delta_writer_invariant (c0 : List String) (cs : List (List String))
    (w w' : List WLine) (c : List String)
    (hw : buildWeave c0 cs = some w) (hw' : extendWeave w c = some w') :
    parse (maxDelta w + 1) w' = some c ∧
      ∀ k, 1 ≤ k → k ≤ maxDelta w → parse k w' = parse k w := by
  rw [buildWeave_shape] at hw
  obtain rfl : weaveShape (c0 :: cs) = w := Option.some.inj hw
  rw [extendWeave_shape_ne (c0 :: cs) (by simp) c] at hw'
  obtain rfl : weaveShape ((c0 :: cs) ++ [c]) = w' := Option.some.inj hw'
  have hmax : maxDelta (weaveShape (c0 :: cs)) = cs.length + 1 := by
    rw [maxDelta_weaveShape_ne _ (by simp)]; simp
  constructor
  · have hp := parse_weaveShape ((c0 :: cs) ++ [c]) (cs.length + 1 + 1)
      (by omega) (by simp)
    rw [hmax, hp]
    rw [show cs.length + 1 + 1 - 1 = (c0 :: cs).length from by simp]
    rw [getD_concat]
  · intro k hk1 hk2
    rw [hmax] at hk2
    have hp1 := parse_weaveShape ((c0 :: cs) ++ [c]) k hk1 (by simp; omega)
    have hp2 := parse_weaveShape (c0 :: cs) k hk1 (by simp; omega)
    rw [hp1, hp2]
    congr 1
    exact getD_append_left (c0 :: cs) [c] (k - 1) [] (by simp; omega)

theorem delta_writer_invariant_witness :
    parse (maxDelta (newWeave ["1", "2", "3"]) + 1)
        ((extendWeave (newWeave ["1", "2", "3"]) ["1", "2a", "3", "4"]).getD []) =
      some ["1", "2a", "3", "4"] ∧
    parse 1 ((extendWeave (newWeave ["1", "2", "3"]) ["1", "2a", "3", "4"]).getD []) =
      parse 1 (newWeave ["1", "2", "3"]) :=
  ⟨(delta_writer_invariant ["1", "2", "3"] [] _ _ ["1", "2a", "3", "4"] rfl rfl).1,
   (delta_writer_invariant ["1", "2", "3"] [] _ _ ["1", "2a", "3", "4"] rfl rfl).2 1
     (by decide) (by decide)⟩

theorem unhex_hexDigit (n : Nat) (h : n < 16) : unhex (hexDigit n) = some n := by
  unfold hexDigit unhex
  by_cases h10 : n < 10
  · rw [if_pos h10, if_pos (by omega)]
    congr 1
    omega
  · rw [if_neg h10, if_neg (by omega), if_pos (by omega)]
    congr 1
    omega

theorem escape_append (a b : List Nat) : escape (a ++ b) = escape a ++ escape b := by
  induction a with
  | nil => rfl
  | cons x r ih => simp [escape, ih]

theorem hexDigit_ne_61 (n : Nat) : hexDigit n ≠ 61 := by
  unfold hexDigit
  split <;> omega

theorem unescape_cons_ne (b : Nat) (r : List Nat) (hb : b ≠ 61) :
    unescape (b :: r) = (unescape r).map fun l => b :: l := by
  conv => lhs; unfold unescape
  rw [if_neg hb]

theorem unescape_escape (l : List Nat) (h : ∀ b ∈ l, b < 256) :
    unescape (escape l) = some l := by
  induction l with
  | nil => rfl
  | cons b r ih =>
      have hb : b < 256 := h b (by simp)
      have ihr := ih fun x hx => h x (by simp [hx])
      by_cases hc : escCond b
      · have hdiv : b / 16 < 16 := by omega
        have hmod : b % 16 < 16 := by omega
        have hesc : escape (b :: r) =
            61 :: hexDigit (b / 16) :: hexDigit (b % 16) :: escape r := by
          simp [escape, escByte, hc]
        rw [hesc]
        conv => lhs; unfold unescape
        rw [if_pos rfl]
        simp [unhex_hexDigit _ hdiv, unhex_hexDigit _ hmod, ihr]
        omega
      · have hb61 : b ≠ 61 := by
          intro hb61
          subst hb61
          simp [escCond] at hc
        have hesc : escape (b :: r) = b :: escape r := by
          simp [escape, escByte, hc]
        rw [hesc, unescape_cons_ne b _ hb61, ihr]
        rfl

theorem escape_no_space (l : List Nat) : ∀ x ∈ escape l, x ≠ 32 := by
  induction l with
  | nil => simp [escape]
  | cons b r ih =>
      intro x hx
      simp only [escape, List.mem_append] at hx
      rcases hx with hx | hx
      · unfold escByte at hx
        by_cases hc : escCond b
        · rw [if_pos hc] at hx
          simp only [List.mem_cons, List.not_mem_nil, or_false] at hx
          rcases hx with hx | hx | hx
          · omega
          · subst hx
            unfold hexDigit
            split <;> omega
          · subst hx
            unfold hexDigit
            split <;> omega
        · rw [if_neg hc] at hx
          simp only [List.mem_cons, List.not_mem_nil, or_false] at hx
          subst hx
          simp only [escCond, Bool.or_eq_true, decide_eq_true_eq, beq_iff_eq,
            not_or] at hc
          omega
      · exact ih x hx

theorem spanSp_append (a : List Nat) (ha : ∀ b ∈ a, b ≠ 32) (r : List Nat) :
    spanSp (a ++ 32 :: r) = (a, 32 :: r) := by
  induction a with
  | nil => simp [spanSp]
  | cons b rest ih =>
      have hb : b ≠ 32 := ha b (by simp)
      simp only [List.cons_append, spanSp, if_neg hb, List.append_eq]
      rw [ih fun x hx => ha x (by simp [hx])]

theorem splitSp_no_space (a : List Nat) (ha : ∀ b ∈ a, b ≠ 32) :
    splitSp a = [a] := by
  induction a with
  | nil => rfl
  | cons b rest ih =>
      have hb : b ≠ 32 := ha b (by simp)
      simp only [splitSp, if_neg hb]
      rw [ih fun x hx => ha x (by simp [hx])]

theorem splitSp_append (a : List Nat) (ha : ∀ b ∈ a, b ≠ 32) (r : List Nat) :
    splitSp (a ++ 32 :: r) = a :: splitSp r := by
  induction a with
  | nil => simp [splitSp]
  | cons b rest ih =>
      have hb : b ≠ 32 := ha b (by simp)
      simp only [List.cons_append, splitSp, if_neg hb, List.append_eq]
      rw [ih fun x hx => ha x (by simp [hx])]

theorem wfAtts_key_no_space (k : List Nat) (v : List Nat)
    (atts : List (List Nat × List Nat)) (h : wfAtts ((k, v) :: atts)) :
    ∀ b ∈ k, b ≠ 32 := by
  intro b hb
  simp only [wfAtts, List.all_cons, Bool.and_eq_true] at h
  have hk := h.1.1.2
  simp only [List.all_eq_true] at hk
  have := hk b hb
  simp at this
  omega

theorem pairTokens_attBytes (atts : List (List Nat × List Nat)) (h : wfAtts atts = true)
    (hne : atts ≠ []) : pairTokens (splitSp (attBytes atts)) = some atts := by
  induction atts with
  | nil => cases hne rfl
  | cons kv rest ih =>
      obtain ⟨k, v⟩ := kv
      have hk : ∀ b ∈ k, b ≠ 32 := wfAtts_key_no_space k v rest h
      have hv : ∀ b ∈ v, b < 256 := by
        simp only [wfAtts, List.all_cons, Bool.and_eq_true] at h
        have hv := h.1.2
        simp only [List.all_eq_true] at hv
        intro b hb
        have := hv b hb
        simpa using this
      have hrest : wfAtts rest = true := by
        simp only [wfAtts, List.all_cons, Bool.and_eq_true] at h
        exact h.2
      cases rest with
      | nil =>
          have hab : attBytes [(k, v)] = k ++ 32 :: escape v := by
            simp [attBytes]
          rw [hab, splitSp_append k hk (escape v),
            splitSp_no_space (escape v) (escape_no_space v)]
          simp only [pairTokens, unescape_escape v hv]
          rfl
      | cons kv2 rest2 =>
          have hab : attBytes ((k, v) :: kv2 :: rest2) =
              k ++ 32 :: (escape v ++ 32 :: attBytes (kv2 :: rest2)) := by
            simp [attBytes]
          rw [hab, splitSp_append k hk _,
            splitSp_append (escape v) (escape_no_space v) _]
          simp only [pairTokens, unescape_escape v hv]
          rw [ih hrest (by simp)]
          rfl

theorem attBytes_ne_nil (k v : List Nat) (rest : List (List Nat × List Nat)) :
    attBytes ((k, v) :: rest) ≠ [] := by
  cases k <;> simp [attBytes]

theorem parseAtts_attBytes (atts : List (List Nat × List Nat)) (h : wfAtts atts = true) :
    parseAtts (attBytes atts) = some atts := by
  cases atts with
  | nil => rfl
  | cons kv rest =>
      obtain ⟨k, v⟩ := kv
      unfold parseAtts
      rw [if_neg (by simpa using attBytes_ne_nil k v rest)]
      exact pairTokens_attBytes ((k, v) :: rest) h (by simp)

theorem wfName_bytes (name : List Nat) (h : wfName name = true) :
    ∀ b ∈ name, b < 256 := by
  intro b hb
  simp only [wfName, List.all_eq_true] at h
  have := h b hb
  simpa using this

theorem parseEntBody_entLine (name : List Nat) (atts : List (List Nat × List Nat))
    (hn : wfName name = true) (ha : wfAtts atts = true) :
    parseEntBody (escape name ++ 32 :: 91 :: (attBytes atts ++ [93])) =
      some (name, atts) := by
  unfold parseEntBody
  rw [spanSp_append (escape name) (escape_no_space name) (91 :: (attBytes atts ++ [93]))]
  simp only [unescape_escape name (wfName_bytes name hn)]
  have hrev : (attBytes atts ++ [93]).reverse = 93 :: (attBytes atts).reverse := by
    simp
  rw [hrev]
  simp only [List.reverse_reverse, parseAtts_attBytes atts ha]

theorem kindChar_ne_117 (k : FKind) : kindChar k ≠ 117 := by
  cases k <;> simp [kindChar]

theorem charKind_kindChar (k : FKind) : charKind (kindChar k) = some k := by
  cases k <;> rfl

theorem parseFilesLoop_round (files : List FEntry) (hf : files.all wfFile = true)
    (rest : List (List Nat)) :
    parseFilesLoop (files.map fileLine ++ [117] :: rest) = some (files, rest) := by
  induction files with
  | nil => simp [parseFilesLoop]
  | cons f fs ih =>
      have hwf : wfFile f = true ∧ fs.all wfFile = true := by
        simpa using hf
      have hne : fileLine f ≠ [117] := by
        unfold fileLine entLine
        intro hcontra
        have : kindChar f.kind = 117 := by injection hcontra
        exact kindChar_ne_117 f.kind this
      have hn : wfName f.name = true := by
        have h1 := hwf.1
        simp only [wfFile, Bool.and_eq_true] at h1
        exact h1.1
      have hat : wfAtts f.atts = true := by
        have h1 := hwf.1
        simp only [wfFile, Bool.and_eq_true] at h1
        exact h1.2
      simp only [List.map_cons, List.cons_append, parseFilesLoop]
      rw [if_neg hne]
      simp only [show fileLine f = kindChar f.kind ::
          (escape f.name ++ 32 :: 91 :: (attBytes f.atts ++ [93])) from rfl,
        charKind_kindChar, parseEntBody_entLine f.name f.atts hn hat,
        List.append_eq, ih hwf.2]
      rfl

theorem pmTree_pos (t : STree) : 1 ≤ pmTree t := by
  cases t
  simp [pmTree]

theorem pmDirs_pos (ds : STList) : 1 ≤ pmDirs ds := by
  cases ds <;> simp [pmDirs]

theorem parse_round_aux (fuel : Nat) :
    (∀ t, wfTree t = true → pmTree t ≤ fuel → ∀ rest,
      parseTreeF fuel (treeLines t ++ rest) = some (t, rest)) ∧
    (∀ ds, wfDirs ds = true → pmDirs ds ≤ fuel → ∀ rest, headIsDir rest = false →
      parseDirsF fuel (tlistLines ds ++ rest) = some (ds, rest)) := by
  induction fuel with
  | zero =>
      constructor
      · intro t _ hf
        have := pmTree_pos t
        omega
      · intro ds _ hf
        have := pmDirs_pos ds
        omega
  | succ f ih =>
      constructor
      · intro t hw hfuel rest
        cases t with
        | mk name atts dirs files =>
            have hw' := hw
            simp only [wfTree, Bool.and_eq_true] at hw'
            have hpm : pmDirs dirs ≤ f := by
              simp only [pmTree] at hfuel
              omega
            have hlines : treeLines (STree.mk name atts dirs files) ++ rest =
                (100 :: (escape name ++ 32 :: 91 :: (attBytes atts ++ [93]))) ::
                  (tlistLines dirs ++
                    ([45] :: (files.map fileLine ++ [117] :: rest))) := by
              simp [treeLines, entLine]
            rw [hlines]
            simp only [parseTreeF]
            rw [parseEntBody_entLine name atts hw'.1.1.1 hw'.1.1.2]
            rw [ih.2 dirs hw'.1.2 hpm ([45] :: (files.map fileLine ++ [117] :: rest))
              (by rfl)]
            dsimp only
            rw [if_pos rfl, parseFilesLoop_round files hw'.2 rest]
      · intro ds hw hfuel rest hrest
        cases ds with
        | nil =>
            simp only [tlistLines, List.nil_append, parseDirsF]
            rw [if_neg (by rw [hrest]; simp)]
        | cons t ts =>
            have hw' := hw
            simp only [wfDirs, Bool.and_eq_true] at hw'
            have hmax : Nat.max (pmTree t) (pmDirs ts) ≤ f := by
              simp only [pmDirs] at hfuel
              omega
            have hpm1 : pmTree t ≤ f := (Nat.max_le.mp hmax).1
            have hpm2 : pmDirs ts ≤ f := (Nat.max_le.mp hmax).2
            cases t with
            | mk name atts dirs files =>
                have hlines : tlistLines (STList.cons (STree.mk name atts dirs files) ts)
                    ++ rest =
                    (100 :: (escape name ++ 32 :: 91 :: (attBytes atts ++ [93]))) ::
                      (tlistLines dirs ++
                        ([45] :: (files.map fileLine ++ [117] ::
                          (tlistLines ts ++ rest)))) := by
                  simp [tlistLines, treeLines, entLine]
                rw [hlines]
                simp only [parseDirsF]
                rw [if_pos (by rfl)]
                have htree := ih.1 (STree.mk name atts dirs files) hw'.1 hpm1
                  (tlistLines ts ++ rest)
                have hlines2 : treeLines (STree.mk name atts dirs files) ++
                    (tlistLines ts ++ rest) =
                    (100 :: (escape name ++ 32 :: 91 :: (attBytes atts ++ [93]))) ::
                      (tlistLines dirs ++
                        ([45] :: (files.map fileLine ++ [117] ::
                          (tlistLines ts ++ rest)))) := by
                  simp [treeLines, entLine]
                rw [hlines2] at htree
                rw [htree]
                dsimp only
                rw [ih.2 ts hw'.2 hpm2 rest hrest]

mutual
theorem pmTree_le_lines : ∀ t : STree, pmTree t ≤ (treeLines t).length
  | STree.mk name atts dirs files => by
      have hd := pmDirs_le_lines dirs
      simp only [pmTree, treeLines, List.length_cons, List.length_append]
      omega
theorem pmDirs_le_lines : ∀ ds : STList, pmDirs ds ≤ 1 + (tlistLines ds).length
  | STList.nil => by simp [pmDirs, tlistLines]
  | STList.cons t ts => by
      have h1 := pmTree_le_lines t
      have h2 := pmDirs_le_lines ts
      have h3 : 1 ≤ (treeLines t).length := by
        cases t
        simp [treeLines]
      have hmax : Nat.max (pmTree t) (pmDirs ts) ≤
          (treeLines t).length + (tlistLines ts).length :=
        Nat.max_le.mpr ⟨by omega, by omega⟩
      simp only [pmDirs, tlistLines, List.length_append]
      omega
end

/-- C4.  Deserializing the serialization of any well-formed tree yields the
tree back: `deserialize (serialize T) = some T`.  In particular the
serialized form is a total, injective function of the tree. -/
theorem serialize_roundtrip (t : STree) (hw : wfTree t = true) :
    deserialize (serialize t) = some t := by
  unfold serialize deserialize
  dsimp only
  rw [if_pos ⟨rfl, rfl⟩]
  have hb : pmTree t ≤ (treeLines t).length + 1 := by
    have := pmTree_le_lines t
    omega
  have h := (parse_round_aux ((treeLines t).length + 1)).1 t hw hb []
  rw [List.append_nil] at h
  rw [h]

theorem serialize_roundtrip_witness :
    wfTree sampleTree = true ∧ deserialize (serialize sampleTree) = some sampleTree :=
  ⟨rfl, serialize_roundtrip sampleTree rfl⟩

theorem lexCmp_self (a : List Nat) : lexCmp a a = Ordering.eq := by
  induction a with
  | nil => rfl
  | cons x r ih => simp [lexCmp, ih]

theorem attsDiff_self (a : List (List Nat × List Nat)) : attsDiff a a = [] := by
  simp [attsDiff]

theorem compareFileEntry_self (path : List (List Nat)) (f : FEntry) :
    compareFileEntry path f f = [] := by
  simp [compareFileEntry, attsDiff_self]

theorem compareFiles_self (fs : List FEntry) (path : List (List Nat)) :
    compareFiles path fs fs = [] := by
  induction fs with
  | nil => simp [compareFiles]
  | cons f r ih =>
      simp [compareFiles, lexCmp_self, compareFileEntry_self, ih]

theorem compare_self_aux (N : Nat) :
    (∀ t : STree, sizeOf t ≤ N → ∀ path,
      (compareTrees path t t).all isStructural = true) ∧
    (∀ ts : STList, sizeOf ts ≤ N → ∀ path,
      (compareTList path ts ts).all isStructural = true) := by
  induction N with
  | zero =>
      constructor
      · intro t ht
        cases t
        simp at ht
      · intro ts ht
        cases ts <;> simp at ht
  | succ N ih =>
      constructor
      · intro t ht path
        cases t with
        | mk name atts dirs files =>
            have hd : sizeOf dirs ≤ N := by
              simp at ht
              omega
            simp [compareTrees, attsDiff_self, compareFiles_self, isStructural,
              ih.2 dirs hd]
      · intro ts ht path
        cases ts with
        | nil => simp [compareTList]
        | cons t rest =>
            have h1 : sizeOf t ≤ N := by
              simp at ht
              omega
            have h2 : sizeOf rest ≤ N := by
              simp at ht
              omega
            simp [compareTList, lexCmp_self, ih.1 t h1, ih.2 rest h2]

/-- C6.  Comparing any tree against itself produces no `added`, `removed` or
`changed` events: every visitor callback of `compareTrees path T T` is an
`enter` or a `leave`. -/
theorem compare_self_no_diff (t : STree) (path : List (List Nat)) :
    (compareTrees path t t).all isStructural = true :=
  (compare_self_aux (sizeOf t)).1 t (Nat.le_refl _) path

theorem removeA_of_lookup_none (k : List Nat) (l : List (List Nat × List Nat))
    (h : lookupA k l = none) : removeA k l = l := by
  induction l with
  | nil => rfl
  | cons p r ih =>
      obtain ⟨k2, v2⟩ := p
      simp only [lookupA] at h
      by_cases hk : k2 = k
      · rw [if_pos hk] at h
        cases h
      · rw [if_neg hk] at h
        simp only [removeA, List.filter_cons]
        rw [if_pos (by simpa using hk)]
        rw [show List.filter (fun p => decide (p.1 ≠ k)) r = removeA k r from rfl]
        rw [ih h]

theorem lexCmp_eq_iff (a b : List Nat) : lexCmp a b = Ordering.eq ↔ a = b := by
  induction a generalizing b with
  | nil => cases b <;> simp [lexCmp]
  | cons x r ih =>
      cases b with
      | nil => simp [lexCmp]
      | cons y s =>
          by_cases hxy : x < y
          · simp [lexCmp, hxy]
            omega
          · by_cases hyx : y < x
            · simp [lexCmp, hxy, hyx]
              omega
            · have hxyeq : x = y := by omega
              simp [lexCmp, hxy, hyx, ih, hxyeq]

theorem removeA_insertA (k v : List Nat) (l : List (List Nat × List Nat))
    (h : lookupA k l = none) : removeA k (insertA k v l) = l := by
  induction l with
  | nil =>
      simp [insertA, removeA]
  | cons p r ih =>
      obtain ⟨k2, v2⟩ := p
      simp only [lookupA] at h
      by_cases hk : k2 = k
      · rw [if_pos hk] at h
        cases h
      · rw [if_neg hk] at h
        simp only [insertA]
        cases hcmp : lexCmp k k2 with
        | lt =>
            simp only [removeA, List.filter_cons]
            rw [if_neg (by simp), if_pos (by simpa using hk)]
            rw [show List.filter (fun p => decide (p.1 ≠ k)) r = removeA k r from rfl]
            rw [removeA_of_lookup_none k r h]
        | eq =>
            exact absurd ((lexCmp_eq_iff k k2).mp hcmp).symm hk
        | gt =>
            simp only [removeA, List.filter_cons]
            rw [if_pos (by simpa using hk)]
            rw [show List.filter (fun p => decide (p.1 ≠ k)) (insertA k v r) =
              removeA k (insertA k v r) from rfl]
            rw [ih h]

theorem fentryFrame_hash (oracle : List (List Nat) → Option (List Nat))
    (path : List (List Nat)) (f : FEntry) :
    fentryFrame f (hashFileEnt oracle path f) = true := by
  unfold hashFileEnt
  by_cases hc : f.kind = FKind.file ∧ lookupA sha1Key f.atts = none ∧
      lookupA sizeKey f.atts ≠ some [48]
  · rw [if_pos hc]
    cases horacle : oracle (path ++ [f.name]) with
    | none => simp [fentryFrame]
    | some h =>
        simp only [fentryFrame]
        simp [hc.1, removeA_insertA sha1Key h f.atts hc.2.1, hc.2.1]
  · rw [if_neg hc]
    simp [fentryFrame]

theorem filesFrame_hash (oracle : List (List Nat) → Option (List Nat))
    (path : List (List Nat)) (fs : List FEntry) :
    filesFrame fs (fs.map (hashFileEnt oracle path)) = true := by
  induction fs with
  | nil => rfl
  | cons f r ih => simp [filesFrame, fentryFrame_hash, ih]

mutual
theorem treeFrame_hashUpdate :
    ∀ (oracle : List (List Nat) → Option (List Nat)) (path : List (List Nat))
      (t : STree), treeFrame t (hashUpdate oracle path t) = true
  | oracle, path, STree.mk name atts dirs files => by
      have hd := tlistFrame_hashUpdate oracle (path ++ [name]) dirs
      simp [hashUpdate, treeFrame, hd, filesFrame_hash]
theorem tlistFrame_hashUpdate :
    ∀ (oracle : List (List Nat) → Option (List Nat)) (path : List (List Nat))
      (ds : STList), tlistFrame ds (hashUpdateL oracle path ds) = true
  | _, _, STList.nil => rfl
  | oracle, path, STList.cons t ts => by
      have h1 := treeFrame_hashUpdate oracle path t
      have h2 := tlistFrame_hashUpdate oracle path ts
      simp [hashUpdateL, tlistFrame, h1, h2]
end

/-- C9.  `hash_update` only ever adds a `sha1` attribute to FILE entries:
for every tree, oracle and base path, the updated tree has the same name,
the same directory attributes, the same child structure in the same order,
and every file entry keeps its name, kind and attributes except possibly for
a newly added `sha1` key that was absent before — and that only on a FILE. -/
theorem hash_update_frame (oracle : List (List Nat) → Option (List Nat))
    (path : List (List Nat)) (t : STree) :
    treeFrame t (hashUpdate oracle path t) = true :=
  treeFrame_hashUpdate oracle path t

theorem lexCmp_lt_trans : ∀ (a b c : List Nat), lexCmp a b = Ordering.lt →
    lexCmp b c = Ordering.lt → lexCmp a c = Ordering.lt
  | [], [], _ => by intro h _; simp [lexCmp] at h
  | [], _ :: _, [] => by intro _ h; simp [lexCmp] at h
  | [], _ :: _, _ :: _ => by intro _ _; rfl
  | _ :: _, [], _ => by intro h _; simp [lexCmp] at h
  | _ :: _, _ :: _, [] => by intro _ h; simp [lexCmp] at h
  | x :: as, y :: bs, z :: cs => by
      intro h1 h2
      simp only [lexCmp] at h1 h2 ⊢
      by_cases hxz : x < z
      · rw [if_pos hxz]
      · by_cases hzx : z < x
        · exfalso
          split_ifs at h1 h2 <;> simp_all <;> omega
        · rw [if_neg hxz, if_neg hzx]
          split_ifs at h1 h2 <;> first
            | omega
            | (exact lexCmp_lt_trans as bs cs h1 h2)

theorem lexCmp_gt_flip : ∀ (a b : List Nat), lexCmp a b = Ordering.gt →
    lexCmp b a = Ordering.lt
  | [], [] => by intro h; simp [lexCmp] at h
  | [], _ :: _ => by intro h; simp [lexCmp] at h
  | _ :: _, [] => by intro _; rfl
  | x :: as, y :: bs => by
      intro h
      simp only [lexCmp] at h ⊢
      by_cases hxy : x < y
      · rw [if_pos hxy] at h
        simp at h
      · by_cases hyx : y < x
        · rw [if_pos hyx]
        · rw [if_neg hxy, if_neg hyx] at h
          rw [if_neg hyx, if_neg hxy]
          exact lexCmp_gt_flip as bs h

theorem mem_insertTag : ∀ (k v : List Char) (l : List (List Char × List Char))
    (p : List Char × List Char), p ∈ insertTag k v l → p = (k, v) ∨ p ∈ l
  | k, v, [], p => by
      intro h
      simp [insertTag] at h
      simp [h]
  | k, v, (k2, v2) :: r, p => by
      intro h
      simp only [insertTag] at h
      cases hcmp : lexCmpC k k2 <;> rw [hcmp] at h
      · simp only [List.mem_cons] at h
        rcases h with h | h | h
        · exact Or.inl h
        · exact Or.inr (by simp [h])
        · exact Or.inr (by simp [h])
      · simp only [List.mem_cons] at h
        rcases h with h | h
        · exact Or.inl h
        · exact Or.inr (by simp [h])
      · simp only [List.mem_cons] at h
        rcases h with h | h
        · exact Or.inr (by simp [h])
        · rcases mem_insertTag k v r p h with h2 | h2
          · exact Or.inl h2
          · exact Or.inr (by simp [h2])

theorem insertTag_sorted (k v : List Char) (l : List (List Char × List Char))
    (h : l.Pairwise fun p q => lexCmpC p.1 q.1 = Ordering.lt) :
    (insertTag k v l).Pairwise fun p q => lexCmpC p.1 q.1 = Ordering.lt := by
  induction l with
  | nil => simp [insertTag]
  | cons hd r ih =>
      obtain ⟨k2, v2⟩ := hd
      rw [List.pairwise_cons] at h
      simp only [insertTag]
      cases hcmp : lexCmpC k k2 with
      | lt =>
          rw [List.pairwise_cons]
          constructor
          · intro p hp
            simp only [List.mem_cons] at hp
            rcases hp with hp | hp
            · simp [hp, hcmp]
            · have hk2p := h.1 p hp
              exact lexCmp_lt_trans _ _ _ hcmp hk2p
          · rw [List.pairwise_cons]
            exact ⟨h.1, h.2⟩
      | eq =>
          rw [List.pairwise_cons]
          constructor
          · intro p hp
            have hmaps : k.map Char.toNat = k2.map Char.toNat :=
              (lexCmp_eq_iff _ _).mp hcmp
            have := h.1 p hp
            unfold lexCmpC at this ⊢
            rw [hmaps]
            exact this
          · exact h.2
      | gt =>
          rw [List.pairwise_cons]
          constructor
          · intro p hp
            rcases mem_insertTag k v r p hp with hp2 | hp2
            · rw [hp2]
              exact lexCmp_gt_flip _ _ hcmp
            · exact h.1 p hp2
          · exact ih h.2

theorem collectTags_sorted : ∀ (ts : List (List Char))
    (acc r : List (List Char × List Char)),
    acc.Pairwise (fun p q => lexCmpC p.1 q.1 = Ordering.lt) →
    collectTags ts acc = some r →
    r.Pairwise fun p q => lexCmpC p.1 q.1 = Ordering.lt
  | [], acc, r => by
      intro hacc h
      simp only [collectTags] at h
      obtain rfl : acc = r := Option.some.inj h
      exact hacc
  | t :: ts2, acc, r => by
      intro hacc h
      simp only [collectTags] at h
      cases hd : decode_tag t with
      | none => rw [hd] at h; cases h
      | some kv =>
          rw [hd] at h
          exact collectTags_sorted ts2 _ r (insertTag_sorted kv.1 kv.2 acc hacc) h

theorem sorted_keys_nodup (l : List (List Char × List Char))
    (h : l.Pairwise fun p q => lexCmpC p.1 q.1 = Ordering.lt) :
    (l.map Prod.fst).Nodup := by
  induction l with
  | nil => simp
  | cons p r ih =>
      rw [List.pairwise_cons] at h
      simp only [List.map_cons, List.nodup_cons]
      constructor
      · intro hmem
        simp only [List.mem_map] at hmem
        obtain ⟨q, hq, hq2⟩ := hmem
        have hlt := h.1 q hq
        rw [hq2] at hlt
        rw [show lexCmpC p.1 p.1 = Ordering.eq from (lexCmp_eq_iff _ _).mpr rfl] at hlt
        cases hlt
      · exact ih h.2

/-- C10.  `decode_tag` on a tag containing `=` returns the part before the
first `=` paired with the remainder (which may itself contain `=`); on a tag
with no `=` it panics (modelled as `none`) instead of returning an error; and
`decode_tags` collects the pairs into a `BTreeMap`, keeping a single entry
per key. -/
theorem decode_tag_spec :
    (∀ (a b : List Char), '=' ∉ a →
        decode_tag (a ++ '=' :: b) = some (a, b)) ∧
    (∀ t : List Char, '=' ∉ t → decode_tag t = none) ∧
    (∀ (ts : List (List Char)) (r : List (List Char × List Char)),
        decode_tags (some ts) = some r → (r.map Prod.fst).Nodup) := by
  refine ⟨?_, ?_, ?_⟩
  · intro a
    induction a with
    | nil => intro b _; simp [decode_tag]
    | cons c r ih =>
        intro b hmem
        have hc : c ≠ '=' := by
          intro hcontra
          exact hmem (by simp [hcontra])
        simp only [List.cons_append, decode_tag, if_neg hc, List.append_eq]
        rw [ih b (fun hx => hmem (by simp [hx]))]
        rfl
  · intro t
    induction t with
    | nil => intro _; rfl
    | cons c r ih =>
        intro hmem
        have hc : c ≠ '=' := by
          intro hcontra
          exact hmem (by simp [hcontra])
        simp only [decode_tag, if_neg hc]
        rw [ih (fun hx => hmem (by simp [hx]))]
        rfl
  · intro ts r h
    exact sorted_keys_nodup r
      (collectTags_sorted ts [] r (by simp) (by simpa [decode_tags] using h))

theorem decode_tag_spec_witness :
    decode_tag (['k'] ++ '=' :: ['v', '=', 'w']) = some (['k'], ['v', '=', 'w']) ∧
    decode_tag ['a', 'b'] = none ∧
    (((([(['k'], ['2'])]) : List (List Char × List Char)).map Prod.fst).Nodup) :=
  ⟨decode_tag_spec.1 ['k'] ['v', '=', 'w'] (by decide),
   decode_tag_spec.2.1 ['a', 'b'] (by decide),
   decode_tag_spec.2.2 [['k', '=', '1'], ['k', '=', '2']] [(['k'], ['2'])] rfl⟩
